import Mathlib

/-!
Verification of the candidate search engine in `cpp_misc/backtrack.cpp`.

Candidates (`std::string`) are modelled as `List Char`.  The constants of the
program are hard-coded exactly as in the source: alphabet
`"abcdefghijklmnopqrstuvwxyz0123456789"`, minimum length 3, maximum length 5,
at least two decimal digits and at least one letter `b`.
-/

/-- `std::islower(ch, std::locale::classic())`: true exactly on `a`..`z`. -/
def is_lower (ch : Char) : Bool := 'a' ≤ ch && ch ≤ 'z'

/-- `std::isdigit(ch, std::locale::classic())`: true exactly on `0`..`9`. -/
def is_digit (ch : Char) : Bool := '0' ≤ ch && ch ≤ '9'

/-- `reject` from the source: a candidate is rejected if it contains a
character that is neither a lowercase latin letter nor a decimal digit, or if
its length is at least 5 and it has fewer than one `b` or fewer than two
digits. -/
def reject (c : List Char) : Bool :=
  if c.any (fun ch => !is_lower ch && !is_digit ch) then true
  else if 5 ≤ c.length then
    if c.count 'b' < 1 ∨ c.countP is_digit < 2 then true else false
  else false

/-- `accept` from the source (the body after the `assert(reject(c) == false)`
precondition check): length within `[3, 5]`, at least one `b`, at least two
digits. -/
def accept (c : List Char) : Bool :=
  if 3 ≤ c.length ∧ c.length ≤ 5 ∧ 1 ≤ c.count 'b' ∧ 2 ≤ c.countP is_digit
  then true else false

/-- The global `valid_chars` string of the source. -/
def valid_chars : List Char := "abcdefghijklmnopqrstuvwxyz0123456789".data

/-- `std::string::npos` for a 64-bit `size_t`. -/
def npos : Nat := 2 ^ 64 - 1

/-- `std::string::find(ch)`: index of the first occurrence of `ch`, or `npos`
if there is none. -/
def str_find (s : List Char) (ch : Char) : Nat :=
  match s with
  | [] => npos
  | c :: cs =>
    if c = ch then 0
    else
      let r := str_find cs ch
      if r = npos then npos else r + 1

/-- `std::string::at(i)`: the character at index `i`, or `none` when `at`
would throw `std::out_of_range`. -/
def str_at (s : List Char) (i : Nat) : Option Char := s[i]?

/-- `valid_chars[i]` with a default, for stating indexed facts about the
alphabet. -/
def vc_at (i : Nat) : Char := valid_chars.getD i 'a'

/-- `first_child` from the source: `nullptr` (here `none`) when the candidate
already has length at least 5, otherwise the candidate extended with
`valid_chars.front()`. -/
def first_child (c : List Char) : Option (List Char) :=
  if 5 ≤ c.length then none
  else some (c ++ [valid_chars.head (by decide)])

/-- `next_child` from the source, with its failure modes made explicit:
`Except.error` models an exception escaping the function (the
`assert(c.empty() == false)` precondition being violated, or `std::out_of_range`
thrown by `valid_chars.at(...)`).  On the success path the source compares the
last character with `valid_chars.back()` and otherwise replaces it with
`valid_chars.at(valid_chars.find(c.back()) + 1)`; `find` yields `npos` for a
character not in the alphabet and the `size_t` increment wraps modulo `2^64`. -/
def next_childE (c : List Char) : Except Unit (Option (List Char)) :=
  match c.getLast? with
  | none => Except.error ()
  | some lc =>
    if lc = valid_chars.getLast (by decide) then Except.ok none
    else
      match str_at valid_chars ((str_find valid_chars lc + 1) % 2 ^ 64) with
      | some ch2 => Except.ok (some (c.dropLast ++ [ch2]))
      | none => Except.error ()

/-- The value of `next_child` on the non-throwing paths (the searches only
call it on non-empty candidates, where it never throws). -/
def next_child (c : List Char) : Option (List Char) :=
  match next_childE c with
  | Except.ok r => r
  | Except.error _ => none

/-! ### Basic characterisations of `reject` and `accept` -/

theorem invalid_char_iff (ch : Char) :
    (!is_lower ch && !is_digit ch) = true ↔
      ¬(is_lower ch = true ∨ is_digit ch = true) := by
  cases h1 : is_lower ch <;> cases h2 : is_digit ch <;> simp

theorem reject_eq_true_iff (c : List Char) :
    reject c = true ↔
      (∃ ch ∈ c, ¬(is_lower ch = true ∨ is_digit ch = true)) ∨
        (5 ≤ c.length ∧ (c.count 'b' < 1 ∨ c.countP is_digit < 2)) := by
  unfold reject
  by_cases h1 : c.any (fun ch => !is_lower ch && !is_digit ch) = true
  · rw [if_pos h1]
    simp only [true_iff]
    left
    rcases List.any_eq_true.mp h1 with ⟨ch, hch, hp⟩
    exact ⟨ch, hch, (invalid_char_iff ch).mp hp⟩
  · rw [if_neg h1]
    have h1' : ¬∃ ch ∈ c, ¬(is_lower ch = true ∨ is_digit ch = true) := by
      rintro ⟨ch, hch, hp⟩
      exact h1 (List.any_eq_true.mpr ⟨ch, hch, (invalid_char_iff ch).mpr hp⟩)
    by_cases h2 : 5 ≤ c.length
    · rw [if_pos h2]
      by_cases h3 : c.count 'b' < 1 ∨ c.countP is_digit < 2
      · rw [if_pos h3]
        exact iff_of_true rfl (Or.inr ⟨h2, h3⟩)
      · rw [if_neg h3]
        refine iff_of_false (by simp) ?_
        rintro (h | ⟨_, hc⟩)
        · exact h1' h
        · exact h3 hc
    · rw [if_neg h2]
      refine iff_of_false (by simp) ?_
      rintro (h | ⟨h5, _⟩)
      · exact h1' h
      · exact h2 h5

theorem accept_eq_true_iff (c : List Char) :
    accept c = true ↔
      3 ≤ c.length ∧ c.length ≤ 5 ∧ 1 ≤ c.count 'b' ∧ 2 ≤ c.countP is_digit := by
  unfold accept
  by_cases h : 3 ≤ c.length ∧ c.length ≤ 5 ∧ 1 ≤ c.count 'b' ∧ 2 ≤ c.countP is_digit
  · simp [h]
  · simp [h]

/-! ### Claims C3, C4, C5 -/

/-- C3, as stated, fails on the code: `accept` does not inspect the
characters, so a candidate containing the out-of-alphabet character `A` can be
accepted while also being rejected. -/
theorem C3_counterexample :
    accept ['A', 'b', '1', '2'] = true ∧ reject ['A', 'b', '1', '2'] = true := by
  decide

/-- C3 (amended): for every candidate all of whose characters are in the
alphabet (in particular every candidate the searches pass to `accept`, which
has already passed the `reject` filter), `accept c = true` implies
`reject c = false`. -/
theorem C3_accept_implies_not_reject (c : List Char)
    (hvalid : ∀ ch ∈ c, is_lower ch = true ∨ is_digit ch = true) :
    accept c = true → reject c = false := by
  intro ha
  rcases (accept_eq_true_iff c).mp ha with ⟨_, _, hb, hd⟩
  cases h : reject c
  · rfl
  · rcases (reject_eq_true_iff c).mp h with ⟨ch, hch, hp⟩ | ⟨_, hcnt⟩
    · exact absurd (hvalid ch hch) hp
    · omega

/-- Witness for C3 (amended) at the concrete candidate `b12`. -/
theorem C3_witness : reject ['b', '1', '2'] = false :=
  C3_accept_implies_not_reject ['b', '1', '2'] (by decide) (by decide)

/-- C4: `reject c` is true iff `c` contains a character outside the alphabet
of lowercase latin letters and decimal digits, or `c` has length at least 5
and lacks two digits or lacks a letter `b`; in particular a shorter candidate
made of alphabet characters is never rejected. -/
theorem C4_reject_characterisation (c : List Char) :
    (reject c = true ↔
      (∃ ch ∈ c, ¬(is_lower ch = true ∨ is_digit ch = true)) ∨
        (5 ≤ c.length ∧ ¬(2 ≤ c.countP is_digit ∧ 1 ≤ c.count 'b'))) ∧
    (c.length < 5 → (∀ ch ∈ c, is_lower ch = true ∨ is_digit ch = true) →
      reject c = false) := by
  constructor
  · rw [reject_eq_true_iff]
    constructor
    · rintro (h | ⟨h5, hcnt⟩)
      · exact Or.inl h
      · exact Or.inr ⟨h5, by omega⟩
    · rintro (h | ⟨h5, hcnt⟩)
      · exact Or.inl h
      · exact Or.inr ⟨h5, by omega⟩
  · intro hlen hvalid
    cases h : reject c
    · rfl
    · rcases (reject_eq_true_iff c).mp h with ⟨ch, hch, hp⟩ | ⟨h5, _⟩
      · exact absurd (hvalid ch hch) hp
      · omega

/-- Witness for C4 at the concrete candidate `zz1` (length 3, all characters
in the alphabet, violating the count constraints, yet not rejected). -/
theorem C4_witness : reject ['z', 'z', '1'] = false :=
  (C4_reject_characterisation ['z', 'z', '1']).2 (by decide) (by decide)

/-- C5: under the precondition `reject c = false`, `accept c` is true iff the
length of `c` lies in `[3, 5]`, `c` contains at least two digits and at least
one letter `b`; in particular `accept "b12" = true`. -/
theorem C5_accept_characterisation :
    (∀ c : List Char, reject c = false →
      (accept c = true ↔
        3 ≤ c.length ∧ c.length ≤ 5 ∧
          2 ≤ c.countP is_digit ∧ 1 ≤ c.count 'b')) ∧
    accept ['b', '1', '2'] = true := by
  constructor
  · intro c _
    rw [accept_eq_true_iff]
    constructor
    · rintro ⟨h3, h5, hb, hd⟩; exact ⟨h3, h5, hd, hb⟩
    · rintro ⟨h3, h5, hd, hb⟩; exact ⟨h3, h5, hb, hd⟩
  · decide

/-- Witness for C5 at the concrete candidate `b12`. -/
theorem C5_witness : accept ['b', '1', '2'] = true :=
  (C5_accept_characterisation.1 ['b', '1', '2'] (by decide)).mpr (by decide)

/-! ### Facts about the alphabet and `next_child` -/

theorem vc_getLast (h : valid_chars ≠ []) : valid_chars.getLast h = '9' :=
  (List.getLast_eq_iff_getLast?_eq_some h).mpr (by decide)

theorem vc_find_at_fin : ∀ i : Fin 36, str_find valid_chars (vc_at i.val) = i.val := by
  decide

theorem vc_find_at (i : Nat) (h : i < 36) : str_find valid_chars (vc_at i) = i :=
  vc_find_at_fin ⟨i, h⟩

theorem vc_str_at_fin : ∀ i : Fin 36, str_at valid_chars i.val = some (vc_at i.val) := by
  decide

theorem vc_str_at (i : Nat) (h : i < 36) : str_at valid_chars i = some (vc_at i) :=
  vc_str_at_fin ⟨i, h⟩

theorem vc_at_eq_nine_fin : ∀ i : Fin 36, (vc_at i.val = '9' ↔ i.val = 35) := by
  decide

theorem vc_at_eq_nine (i : Nat) (h : i < 36) : vc_at i = '9' ↔ i = 35 :=
  vc_at_eq_nine_fin ⟨i, h⟩

theorem vc_drop_cons_fin :
    ∀ i : Fin 36, valid_chars.drop i.val = vc_at i.val :: valid_chars.drop (i.val + 1) := by
  decide

theorem vc_drop_cons (i : Nat) (h : i < 36) :
    valid_chars.drop i = vc_at i :: valid_chars.drop (i + 1) :=
  vc_drop_cons_fin ⟨i, h⟩

theorem vc_all_valid : ∀ ch ∈ valid_chars, is_lower ch = true ∨ is_digit ch = true := by
  decide

theorem str_find_not_mem (s : List Char) (ch : Char) (h : ch ∉ s) :
    str_find s ch = npos := by
  induction s with
  | nil => rfl
  | cons a as ih =>
    simp only [List.mem_cons, not_or] at h
    unfold str_find
    rw [if_neg (fun he => h.1 he.symm)]
    simp [ih h.2]

theorem next_childE_concat_step (d : List Char) (i : Nat) (h : i + 1 < 36) :
    next_childE (d ++ [vc_at i]) = Except.ok (some (d ++ [vc_at (i + 1)])) := by
  have h9 : ¬(vc_at i = '9') := by
    intro h9
    have h35 := (vc_at_eq_nine i (by omega)).mp h9
    omega
  simp only [next_childE, List.getLast?_concat]
  rw [if_neg (by rw [vc_getLast]; exact h9)]
  rw [vc_find_at i (by omega)]
  rw [Nat.mod_eq_of_lt (by omega)]
  rw [vc_str_at (i + 1) h]
  rw [List.dropLast_concat]

theorem next_childE_concat_last (d : List Char) :
    next_childE (d ++ [vc_at 35]) = Except.ok none := by
  simp only [next_childE, List.getLast?_concat]
  rw [if_pos (by rw [vc_getLast]; exact (vc_at_eq_nine 35 (by omega)).mpr rfl)]

theorem next_childE_not_mem (c : List Char) (lc : Char)
    (hl : c.getLast? = some lc) (hmem : lc ∉ valid_chars) :
    next_childE c = Except.ok (some (c.dropLast ++ ['a'])) := by
  have h9 : ¬(lc = '9') := fun he => hmem (he ▸ (by decide : '9' ∈ valid_chars))
  simp only [next_childE, hl]
  rw [if_neg (by rw [vc_getLast]; exact h9)]
  rw [str_find_not_mem valid_chars lc hmem]
  have hmod : (npos + 1) % 2 ^ 64 = 0 := by decide
  rw [hmod]
  rfl

theorem next_childE_mem (c : List Char) (lc : Char)
    (hl : c.getLast? = some lc) (hmem : lc ∈ valid_chars) (h9 : lc ≠ '9') :
    ∃ i : Nat, i + 1 < 36 ∧ vc_at i = lc ∧
      next_childE c = Except.ok (some (c.dropLast ++ [vc_at (i + 1)])) := by
  rcases List.mem_iff_getElem?.mp hmem with ⟨i, hi⟩
  have hilt : i < 36 := by
    by_contra hge
    rw [List.getElem?_eq_none (by simpa [valid_chars] using Nat.le_of_not_lt hge)] at hi
    exact Option.noConfusion hi
  have hva : vc_at i = lc := by
    unfold vc_at
    rw [List.getD_eq_getElem?_getD, hi]
    rfl
  have h35 : i ≠ 35 := by
    intro he
    rw [he] at hva
    exact h9 (hva ▸ ((vc_at_eq_nine 35 (by omega)).mpr rfl))
  refine ⟨i, by omega, hva, ?_⟩
  simp only [next_childE, hl]
  rw [if_neg (by rw [vc_getLast]; exact h9)]
  rw [← hva, vc_find_at i hilt]
  rw [Nat.mod_eq_of_lt (by omega)]
  rw [vc_str_at (i + 1) (by omega)]

theorem vc_mem_fin : ∀ i : Fin 36, vc_at i.val ∈ valid_chars := by
  decide

theorem vc_mem (i : Nat) (h : i < 36) : vc_at i ∈ valid_chars :=
  vc_mem_fin ⟨i, h⟩

theorem vc_at_inj_fin : ∀ i j : Fin 36, vc_at i.val = vc_at j.val → i.val = j.val := by
  decide

theorem vc_at_inj (i j : Nat) (hi : i < 36) (hj : j < 36) (h : vc_at i = vc_at j) :
    i = j :=
  vc_at_inj_fin ⟨i, hi⟩ ⟨j, hj⟩ h

theorem next_childE_step_of_getLast (c : List Char) (i : Nat) (h36 : i < 36)
    (h35 : i ≠ 35) (hl : c.getLast? = some (vc_at i)) :
    next_childE c = Except.ok (some (c.dropLast ++ [vc_at (i + 1)])) := by
  have h9 : vc_at i ≠ '9' := fun he => h35 ((vc_at_eq_nine i h36).mp he)
  rcases next_childE_mem c (vc_at i) hl (vc_mem i h36) h9 with ⟨j, hj36, hji, he⟩
  rw [vc_at_inj j i (by omega) h36 hji] at he
  exact he

/-! ### Claims C8 and C10 -/

/-- C8: for every non-empty candidate, `next_child` returns `none` exactly
when the last character is `'9'` (the alphabet's last character); when the
last character is the alphabet character of index `i < 35` it returns the
candidate with its last character advanced to index `i + 1`, keeping the
length; and `next_child` never throws (`next_childE` always returns
`Except.ok`), the out-of-range case being prevented structurally. -/
theorem C8_next_child_spec (c : List Char) (hne : c ≠ []) :
    (next_child c = none ↔ c.getLast? = some '9') ∧
    (∃ r, next_childE c = Except.ok r) ∧
    (∀ i : Nat, i < 36 → i ≠ 35 → c.getLast? = some (vc_at i) →
      next_child c = some (c.dropLast ++ [vc_at (i + 1)])) ∧
    (∀ d, next_child c = some d → d.length = c.length) := by
  cases hl : c.getLast? with
  | none => exact absurd (List.getLast?_eq_none_iff.mp hl) hne
  | some lc =>
    have hstep : ∀ i : Nat, i < 36 → i ≠ 35 → some lc = some (vc_at i) →
        next_child c = some (c.dropLast ++ [vc_at (i + 1)]) := by
      intro i h36 h35 hli
      unfold next_child
      rw [next_childE_step_of_getLast c i h36 h35 (hl.trans hli)]
    by_cases h9 : lc = '9'
    · subst h9
      have he : next_childE c = Except.ok none := by
        simp only [next_childE, hl]
        rw [if_pos (by rw [vc_getLast])]
      have hn : next_child c = none := by unfold next_child; rw [he]
      refine ⟨iff_of_true hn rfl, ⟨none, he⟩, hstep, ?_⟩
      intro d hd
      rw [hn] at hd
      exact Option.noConfusion hd
    · have hsome : ∃ ch, next_childE c = Except.ok (some (c.dropLast ++ [ch])) := by
        by_cases hmem : lc ∈ valid_chars
        · rcases next_childE_mem c lc hl hmem h9 with ⟨i, _, _, he⟩
          exact ⟨_, he⟩
        · exact ⟨'a', next_childE_not_mem c lc hl hmem⟩
      rcases hsome with ⟨ch, he⟩
      have hn : next_child c = some (c.dropLast ++ [ch]) := by
        unfold next_child; rw [he]
      refine ⟨?_, ⟨_, he⟩, hstep, ?_⟩
      · refine iff_of_false (by rw [hn]; exact fun h => Option.noConfusion h) ?_
        exact fun h => h9 (Option.some.inj h)
      · intro d hd
        rw [hn] at hd
        have hd' : c.dropLast ++ [ch] = d := Option.some.inj hd
        rw [← hd', List.length_append, List.length_dropLast]
        have hpos : 1 ≤ c.length := List.length_pos.mpr hne
        simp only [List.length_singleton]
        omega

/-- Witness for C8 at the concrete candidate `a9`. -/
theorem C8_witness : next_child ['a', '9'] = none :=
  ((C8_next_child_spec ['a', '9'] (by decide)).1).mpr (by decide)

/-- C10: on a non-empty candidate whose last character is outside the
alphabet (neither a lowercase latin letter nor a decimal digit, hence in
particular not `'9'`), `next_child` does not fault: `find` yields `npos`, the
`size_t` increment wraps to index `0`, and the result is the candidate with
its last character replaced by `'a'`. -/
theorem C10_next_child_wraparound (c : List Char) (_hne : c ≠ []) (lc : Char)
    (hl : c.getLast? = some lc)
    (hlow : is_lower lc = false) (hdig : is_digit lc = false) :
    next_childE c = Except.ok (some (c.dropLast ++ ['a'])) ∧
    next_child c = some (c.dropLast ++ ['a']) := by
  have hmem : lc ∉ valid_chars := by
    intro hmem
    rcases vc_all_valid lc hmem with h | h
    · rw [hlow] at h; exact Bool.noConfusion h
    · rw [hdig] at h; exact Bool.noConfusion h
  have he := next_childE_not_mem c lc hl hmem
  refine ⟨he, ?_⟩
  unfold next_child
  rw [he]

/-- Witness for C10 at the concrete candidate `A` (capital letter, outside
the alphabet). -/
theorem C10_witness : next_child ['A'] = some ['a'] :=
  (C10_next_child_wraparound ['A'] (by decide) 'A' (by decide) (by decide)
    (by decide)).2

/-! ### The child chain and the `children` list -/

/-- The sibling chain each search runs: starting from a child, repeatedly
take `next_child` until it returns `none`.  `fuel` bounds the number of
chain elements; `36` suffices from any first child. -/
def sib_chain (c : List Char) : Nat → List (List Char)
  | 0 => []
  | fuel + 1 =>
    c :: (match next_child c with
          | none => []
          | some d => sib_chain d fuel)

/-- The children of a candidate, in the order the searches generate them:
`first_child` followed by the `next_child` chain. -/
def children (c : List Char) : List (List Char) :=
  match first_child c with
  | none => []
  | some d => sib_chain d 36

theorem next_child_concat_step (d : List Char) (i : Nat) (h : i + 1 < 36) :
    next_child (d ++ [vc_at i]) = some (d ++ [vc_at (i + 1)]) := by
  unfold next_child
  rw [next_childE_concat_step d i h]

theorem next_child_concat_last (d : List Char) :
    next_child (d ++ [vc_at 35]) = none := by
  unfold next_child
  rw [next_childE_concat_last d]

theorem sib_chain_eq :
    ∀ (fuel i : Nat), i < 36 → 36 - i ≤ fuel → ∀ d : List Char,
      sib_chain (d ++ [vc_at i]) fuel =
        (valid_chars.drop i).map (fun ch => d ++ [ch]) := by
  intro fuel
  induction fuel with
  | zero => intro i h36 hf; omega
  | succ f ih =>
    intro i h36 hf d
    unfold sib_chain
    by_cases h35 : i = 35
    · subst h35
      rw [next_child_concat_last d]
      rw [vc_drop_cons 35 (by omega)]
      rw [show valid_chars.drop 36 = [] from by decide]
      rfl
    · simp only [next_child_concat_step d i (by omega)]
      rw [ih (i + 1) (by omega) (by omega) d]
      rw [vc_drop_cons i h36]
      rfl

theorem children_eq (c : List Char) :
    children c =
      if 5 ≤ c.length then [] else valid_chars.map (fun ch => c ++ [ch]) := by
  by_cases h : 5 ≤ c.length
  · have hfc : first_child c = none := by unfold first_child; rw [if_pos h]
    simp only [children, hfc, if_pos h]
  · have hfc : first_child c = some (c ++ ['a']) := by
      unfold first_child
      rw [if_neg h]
      rfl
    simp only [children, hfc, if_neg h]
    have h0 : ('a' : Char) = vc_at 0 := by decide
    rw [h0, sib_chain_eq 36 0 (by omega) (by omega) c, List.drop_zero]

theorem mem_children {x c : List Char} :
    x ∈ children c ↔ c.length < 5 ∧ ∃ ch ∈ valid_chars, x = c ++ [ch] := by
  rw [children_eq]
  by_cases h : 5 ≤ c.length
  · rw [if_pos h]
    refine iff_of_false (by simp) ?_
    rintro ⟨h5, _⟩
    omega
  · rw [if_neg h]
    rw [List.mem_map]
    constructor
    · rintro ⟨ch, hch, rfl⟩
      exact ⟨by omega, ch, hch, rfl⟩
    · rintro ⟨_, ch, hch, rfl⟩
      exact ⟨ch, hch, rfl⟩

theorem mem_children_length {x c : List Char} (h : x ∈ children c) :
    x.length = c.length + 1 ∧ c.length < 5 := by
  rcases mem_children.mp h with ⟨h5, ch, _, rfl⟩
  rw [List.length_append]
  exact ⟨rfl, h5⟩

theorem children_of_long {c : List Char} (h : 5 ≤ c.length) : children c = [] := by
  rw [children_eq, if_pos h]

theorem children_parent {x p q : List Char} (hp : x ∈ children p)
    (hq : x ∈ children q) : p = q := by
  rcases mem_children.mp hp with ⟨_, ch, _, rfl⟩
  rcases mem_children.mp hq with ⟨_, ch', _, he⟩
  have hlen : p.length = q.length := by
    have hl := congrArg List.length he
    simp only [List.length_append, List.length_singleton] at hl
    omega
  exact (List.append_inj he hlen).1

/-! ### The three searches, with explicit fuel

The searches are embedded with a fuel parameter so that they are structurally
recursive and computable by the kernel; the fuel-irrelevance lemmas below show
the chosen fuels dominate the actual recursion/iteration depth of the source.
-/

/-- Body of `backtrack_rec`: reject prunes, accept emits, then the `while`
loop over `first_child`/`next_child` recurses into each child in order. -/
def backtrack_recF : Nat → List Char → List (List Char)
  | 0, _ => []
  | fuel + 1, c =>
    if reject c then []
    else
      (if accept c then [c] else []) ++
        (children c).flatMap (backtrack_recF fuel)

/-- The output sequence of `backtrack_rec` from root `c`. -/
def backtrack_rec (c : List Char) : List (List Char) :=
  backtrack_recF 6 c

/-- The sequence of candidates `backtrack_rec` is invoked on (each candidate
checked against `reject`), in order. -/
def visited_recF : Nat → List Char → List (List Char)
  | 0, _ => []
  | fuel + 1, c =>
    c :: (if reject c then []
          else (children c).flatMap (visited_recF fuel))

def visited_rec (c : List Char) : List (List Char) :=
  visited_recF 6 c

/-- Body of `backtrack_stk`: examine the top of the stack; a rejected top is
popped; otherwise it may be emitted, is popped, and its children are pushed
in chain order (so the stack holds them in reverse). -/
def backtrack_stkF : Nat → List (List Char) → List (List Char)
  | 0, _ => []
  | _ + 1, [] => []
  | fuel + 1, c :: rest =>
    if reject c then backtrack_stkF fuel rest
    else
      (if accept c then [c] else []) ++
        backtrack_stkF fuel ((children c).reverse ++ rest)

/-- The sequence of candidates examined by the stack search, in order. -/
def visited_stkF : Nat → List (List Char) → List (List Char)
  | 0, _ => []
  | _ + 1, [] => []
  | fuel + 1, c :: rest =>
    c :: (if reject c then visited_stkF fuel rest
          else visited_stkF fuel ((children c).reverse ++ rest))

/-- Body of `backtrack_que`: identical to the stack version except that the
frontier is a FIFO queue, so children are appended at the back. -/
def backtrack_queF : Nat → List (List Char) → List (List Char)
  | 0, _ => []
  | _ + 1, [] => []
  | fuel + 1, c :: rest =>
    if reject c then backtrack_queF fuel rest
    else
      (if accept c then [c] else []) ++
        backtrack_queF fuel (rest ++ children c)

/-- The sequence of candidates examined by the queue search, in order. -/
def visited_queF : Nat → List (List Char) → List (List Char)
  | 0, _ => []
  | _ + 1, [] => []
  | fuel + 1, c :: rest =>
    c :: (if reject c then visited_queF fuel rest
          else visited_queF fuel (rest ++ children c))

/-- Size of the full enumeration tree below a candidate with `k` levels of
extension remaining. -/
def W : Nat → Nat
  | 0 => 1
  | k + 1 => 1 + 36 * W k

/-- Upper bound on the number of candidates the search can examine at or
below `c`. -/
def weight (c : List Char) : Nat := W (5 - c.length)

/-- Upper bound on the number of loop iterations from a given frontier. -/
def stackW (l : List (List Char)) : Nat := (l.map weight).sum

/-- `backtrack_stk` from the source: run the stack loop from the singleton
stack holding the start candidate.  `stackW` fuel dominates the iteration
count. -/
def backtrack_stk (start : List Char) : List (List Char) :=
  backtrack_stkF (stackW [start]) [start]

def visited_stk (start : List Char) : List (List Char) :=
  visited_stkF (stackW [start]) [start]

/-- `backtrack_que` from the source: run the queue loop from the singleton
queue holding the start candidate. -/
def backtrack_que (start : List Char) : List (List Char) :=
  backtrack_queF (stackW [start]) [start]

def visited_que (start : List Char) : List (List Char) :=
  visited_queF (stackW [start]) [start]

/-! ### Weight bookkeeping -/

theorem W_succ (k : Nat) : W (k + 1) = 1 + 36 * W k := rfl

theorem W_pos (k : Nat) : 1 ≤ W k := by
  cases k with
  | zero => exact Nat.le_refl 1
  | succ k => unfold W; omega

theorem weight_pos (c : List Char) : 1 ≤ weight c := W_pos _

theorem stackW_cons (c : List Char) (rest : List (List Char)) :
    stackW (c :: rest) = weight c + stackW rest := rfl

theorem stackW_append (a b : List (List Char)) :
    stackW (a ++ b) = stackW a + stackW b := by
  unfold stackW
  rw [List.map_append, List.sum_append]

theorem stackW_reverse (l : List (List Char)) : stackW l.reverse = stackW l := by
  unfold stackW
  rw [List.map_reverse, List.sum_reverse]

theorem sum_map_const {α : Type} (l : List α) (k : Nat) :
    (l.map (fun _ => k)).sum = l.length * k := by
  induction l with
  | nil => simp
  | cons a as ih =>
    simp only [List.map_cons, List.sum_cons, List.length_cons, ih]
    ring

theorem stackW_children (c : List Char) : stackW (children c) < weight c := by
  by_cases h : 5 ≤ c.length
  · rw [children_of_long h]
    exact weight_pos c
  · rw [children_eq, if_neg h]
    unfold stackW
    rw [List.map_map]
    have hw : (weight ∘ fun ch => c ++ [ch]) = fun _ : Char => W (4 - c.length) := by
      funext ch
      show weight (c ++ [ch]) = W (4 - c.length)
      unfold weight
      rw [List.length_append, List.length_singleton]
      congr 1
      omega
    rw [hw, sum_map_const]
    have hlen : valid_chars.length = 36 := by decide
    rw [hlen]
    unfold weight
    have h5 : 5 - c.length = (4 - c.length) + 1 := by omega
    rw [h5, W_succ]
    omega

theorem stackW_eq_zero {l : List (List Char)} (h : stackW l = 0) : l = [] := by
  cases l with
  | nil => rfl
  | cons c rest =>
    rw [stackW_cons] at h
    have := weight_pos c
    omega

/-! ### Fuel irrelevance -/

theorem flatMap_congr_mem {α β : Type} {l : List α} {f g : α → List β}
    (h : ∀ x ∈ l, f x = g x) : l.flatMap f = l.flatMap g := by
  induction l with
  | nil => rfl
  | cons a as ih =>
    simp only [List.flatMap_cons]
    rw [h a (List.mem_cons_self a as), ih (fun x hx => h x (List.mem_cons_of_mem a hx))]

theorem backtrack_recF_irrel :
    ∀ fuel fuel' c, 1 ≤ fuel → 6 - (List.length c) ≤ fuel →
      1 ≤ fuel' → 6 - (List.length c) ≤ fuel' →
      backtrack_recF fuel c = backtrack_recF fuel' c := by
  intro fuel
  induction fuel with
  | zero => intro fuel' c h1; omega
  | succ f ih =>
    intro fuel' c _ hf h1' hf'
    cases fuel' with
    | zero => omega
    | succ f' =>
      unfold backtrack_recF
      by_cases hr : reject c
      · rw [if_pos hr, if_pos hr]
      · rw [if_neg hr, if_neg hr]
        congr 1
        apply flatMap_congr_mem
        intro x hx
        rcases mem_children_length hx with ⟨hxl, hcl⟩
        exact ih f' x (by omega) (by omega) (by omega) (by omega)

theorem visited_recF_irrel :
    ∀ fuel fuel' c, 1 ≤ fuel → 6 - (List.length c) ≤ fuel →
      1 ≤ fuel' → 6 - (List.length c) ≤ fuel' →
      visited_recF fuel c = visited_recF fuel' c := by
  intro fuel
  induction fuel with
  | zero => intro fuel' c h1; omega
  | succ f ih =>
    intro fuel' c _ hf h1' hf'
    cases fuel' with
    | zero => omega
    | succ f' =>
      unfold visited_recF
      by_cases hr : reject c
      · rw [if_pos hr, if_pos hr]
      · rw [if_neg hr, if_neg hr]
        refine congrArg (fun t => c :: t) ?_
        apply flatMap_congr_mem
        intro x hx
        rcases mem_children_length hx with ⟨hxl, hcl⟩
        exact ih f' x (by omega) (by omega) (by omega) (by omega)

theorem backtrack_rec_unfold (c : List Char) :
    backtrack_rec c =
      if reject c then []
      else
        (if accept c then [c] else []) ++
          (children c).flatMap backtrack_rec := by
  show backtrack_recF 6 c = _
  unfold backtrack_recF
  by_cases hr : reject c
  · rw [if_pos hr, if_pos hr]
  · rw [if_neg hr, if_neg hr]
    congr 1
    apply flatMap_congr_mem
    intro x hx
    rcases mem_children_length hx with ⟨hxl, hcl⟩
    exact backtrack_recF_irrel 5 6 x (by omega) (by omega) (by omega) (by omega)

theorem visited_rec_unfold (c : List Char) :
    visited_rec c =
      c :: (if reject c then []
            else (children c).flatMap visited_rec) := by
  show visited_recF 6 c = _
  unfold visited_recF
  by_cases hr : reject c
  · rw [if_pos hr, if_pos hr]
  · rw [if_neg hr, if_neg hr]
    refine congrArg (fun t => c :: t) ?_
    apply flatMap_congr_mem
    intro x hx
    rcases mem_children_length hx with ⟨hxl, hcl⟩
    exact visited_recF_irrel 5 6 x (by omega) (by omega) (by omega) (by omega)

theorem backtrack_stkF_nil (fuel : Nat) : backtrack_stkF fuel [] = [] := by
  cases fuel <;> rfl

theorem visited_stkF_nil (fuel : Nat) : visited_stkF fuel [] = [] := by
  cases fuel <;> rfl

theorem backtrack_queF_nil (fuel : Nat) : backtrack_queF fuel [] = [] := by
  cases fuel <;> rfl

theorem visited_queF_nil (fuel : Nat) : visited_queF fuel [] = [] := by
  cases fuel <;> rfl

/-! ### Emitted output is the visit sequence filtered by the accept test -/

theorem backtrack_recF_filter :
    ∀ fuel c, backtrack_recF fuel c =
      (visited_recF fuel c).filter (fun x => !reject x && accept x) := by
  intro fuel
  induction fuel with
  | zero => intro c; rfl
  | succ f ih =>
    intro c
    unfold backtrack_recF visited_recF
    by_cases hr : reject c
    · rw [if_pos hr, if_pos hr, List.filter_cons, if_neg (by simp [hr])]
      rfl
    · rw [if_neg hr, if_neg hr, List.filter_cons]
      have hfm :
          ((children c).flatMap (visited_recF f)).filter
              (fun x => !reject x && accept x) =
            (children c).flatMap (backtrack_recF f) := by
        rw [List.filter_flatMap]
        apply flatMap_congr_mem
        intro x _
        exact (ih x).symm
      by_cases ha : accept c
      · rw [if_pos ha, if_pos (by simp [hr, ha]), hfm]
        rfl
      · rw [if_neg ha, if_neg (by simp [hr, ha]), hfm]
        rfl

theorem backtrack_stkF_filter :
    ∀ fuel l, backtrack_stkF fuel l =
      (visited_stkF fuel l).filter (fun x => !reject x && accept x) := by
  intro fuel
  induction fuel with
  | zero => intro l; rfl
  | succ f ih =>
    intro l
    cases l with
    | nil => rfl
    | cons c rest =>
      unfold backtrack_stkF visited_stkF
      rw [List.filter_cons]
      by_cases hr : reject c
      · rw [if_pos hr, if_pos hr, if_neg (by simp [hr])]
        exact ih rest
      · rw [if_neg hr, if_neg hr]
        by_cases ha : accept c
        · rw [if_pos ha, if_pos (by simp [hr, ha]), ih _]
          rfl
        · rw [if_neg ha, if_neg (by simp [hr, ha])]
          exact ih _

theorem backtrack_queF_filter :
    ∀ fuel l, backtrack_queF fuel l =
      (visited_queF fuel l).filter (fun x => !reject x && accept x) := by
  intro fuel
  induction fuel with
  | zero => intro l; rfl
  | succ f ih =>
    intro l
    cases l with
    | nil => rfl
    | cons c rest =>
      unfold backtrack_queF visited_queF
      rw [List.filter_cons]
      by_cases hr : reject c
      · rw [if_pos hr, if_pos hr, if_neg (by simp [hr])]
        exact ih rest
      · rw [if_neg hr, if_neg hr]
        by_cases ha : accept c
        · rw [if_pos ha, if_pos (by simp [hr, ha]), ih _]
          rfl
        · rw [if_neg ha, if_neg (by simp [hr, ha])]
          exact ih _

theorem backtrack_rec_eq_filter (c : List Char) :
    backtrack_rec c =
      (visited_rec c).filter (fun x => !reject x && accept x) :=
  backtrack_recF_filter 6 c

theorem backtrack_stk_eq_filter (r : List Char) :
    backtrack_stk r =
      (visited_stk r).filter (fun x => !reject x && accept x) :=
  backtrack_stkF_filter (stackW [r]) [r]

theorem backtrack_que_eq_filter (r : List Char) :
    backtrack_que r =
      (visited_que r).filter (fun x => !reject x && accept x) :=
  backtrack_queF_filter (stackW [r]) [r]

/-! ### The stack and queue searches visit the recursive visit sequence, up
to permutation -/

theorem visited_stkF_perm :
    ∀ fuel l, stackW l ≤ fuel →
      (visited_stkF fuel l).Perm (l.flatMap visited_rec) := by
  intro fuel
  induction fuel with
  | zero =>
    intro l h
    have hl := stackW_eq_zero (Nat.le_zero.mp h)
    subst hl
    exact List.Perm.refl []
  | succ f ih =>
    intro l h
    cases l with
    | nil => exact List.Perm.refl []
    | cons c rest =>
      rw [stackW_cons] at h
      have hw := weight_pos c
      unfold visited_stkF
      rw [List.flatMap_cons]
      by_cases hr : reject c
      · rw [if_pos hr]
        have hvr : visited_rec c = [c] := by rw [visited_rec_unfold, if_pos hr]
        rw [hvr]
        exact List.Perm.cons c (ih rest (by omega))
      · rw [if_neg hr]
        have hvr : visited_rec c = c :: (children c).flatMap visited_rec := by
          rw [visited_rec_unfold, if_neg hr]
        rw [hvr, List.cons_append]
        have hst : stackW ((children c).reverse ++ rest) ≤ f := by
          rw [stackW_append, stackW_reverse]
          have := stackW_children c
          omega
        have hih := ih _ hst
        rw [List.flatMap_append] at hih
        refine List.Perm.cons c (hih.trans ?_)
        exact List.Perm.append
          (List.Perm.flatMap_right visited_rec (List.reverse_perm _))
          (List.Perm.refl _)

theorem visited_queF_perm :
    ∀ fuel l, stackW l ≤ fuel →
      (visited_queF fuel l).Perm (l.flatMap visited_rec) := by
  intro fuel
  induction fuel with
  | zero =>
    intro l h
    have hl := stackW_eq_zero (Nat.le_zero.mp h)
    subst hl
    exact List.Perm.refl []
  | succ f ih =>
    intro l h
    cases l with
    | nil => exact List.Perm.refl []
    | cons c rest =>
      rw [stackW_cons] at h
      have hw := weight_pos c
      unfold visited_queF
      rw [List.flatMap_cons]
      by_cases hr : reject c
      · rw [if_pos hr]
        have hvr : visited_rec c = [c] := by rw [visited_rec_unfold, if_pos hr]
        rw [hvr]
        exact List.Perm.cons c (ih rest (by omega))
      · rw [if_neg hr]
        have hvr : visited_rec c = c :: (children c).flatMap visited_rec := by
          rw [visited_rec_unfold, if_neg hr]
        rw [hvr, List.cons_append]
        have hst : stackW (rest ++ children c) ≤ f := by
          rw [stackW_append]
          have := stackW_children c
          omega
        have hih := ih _ hst
        rw [List.flatMap_append] at hih
        refine List.Perm.cons c (hih.trans ?_)
        exact List.perm_append_comm

theorem visited_stk_perm (r : List Char) :
    (visited_stk r).Perm (visited_rec r) := by
  have h := visited_stkF_perm (stackW [r]) [r] (Nat.le_refl _)
  simpa using h

theorem visited_que_perm (r : List Char) :
    (visited_que r).Perm (visited_rec r) := by
  have h := visited_queF_perm (stackW [r]) [r] (Nat.le_refl _)
  simpa using h

/-! ### Claims C1 and C2 -/

/-- C1: from any root, the three strategies (recursive DFS, explicit-stack
DFS, explicit-queue BFS), run with the program's alphabet, length bounds and
reject/accept predicates, produce the identical set of accepted candidates. -/
theorem C1_same_accepted_set (r : List Char) :
    (∀ x, x ∈ backtrack_stk r ↔ x ∈ backtrack_rec r) ∧
    (∀ x, x ∈ backtrack_que r ↔ x ∈ backtrack_rec r) := by
  have hs : (backtrack_stk r).Perm (backtrack_rec r) := by
    rw [backtrack_stk_eq_filter, backtrack_rec_eq_filter]
    exact List.Perm.filter _ (visited_stk_perm r)
  have hq : (backtrack_que r).Perm (backtrack_rec r) := by
    rw [backtrack_que_eq_filter, backtrack_rec_eq_filter]
    exact List.Perm.filter _ (visited_que_perm r)
  exact ⟨fun x => hs.mem_iff, fun x => hq.mem_iff⟩

/-- C2, as stated, fails on the code: the explicit-stack search pushes the
children of a candidate in alphabet order onto a LIFO stack and therefore
explores siblings in reverse alphabet order, so from the root `b1aa` it emits
the accepted candidates `b1aa9 … b1aa0`, while the recursive search emits
`b1aa0 … b1aa9`. -/
theorem C2_counterexample :
    backtrack_stk ['b', '1', 'a', 'a'] ≠ backtrack_rec ['b', '1', 'a', 'a'] := by
  decide

/-- C2 (amended): from any start candidate, the explicit-stack search visits
the same multiset of candidates as the recursive search and emits the same
multiset of accepted candidates — the sets coincide — but in general in a
different order (siblings are explored in reverse alphabet order). -/
theorem C2_stk_emits_same_multiset (r : List Char) :
    (backtrack_stk r).Perm (backtrack_rec r) ∧
      (visited_stk r).Perm (visited_rec r) := by
  refine ⟨?_, visited_stk_perm r⟩
  rw [backtrack_stk_eq_filter, backtrack_rec_eq_filter]
  exact List.Perm.filter _ (visited_stk_perm r)

/-! ### Structure of the visit sequence -/

theorem visited_rec_self (r : List Char) : r ∈ visited_rec r := by
  rw [visited_rec_unfold]
  exact List.mem_cons_self r _

theorem visited_recF_ext :
    ∀ fuel r x, x ∈ visited_recF fuel r → ∃ t, r ++ t = x := by
  intro fuel
  induction fuel with
  | zero => intro r x h; exact absurd h (List.not_mem_nil x)
  | succ f ih =>
    intro r x h
    unfold visited_recF at h
    rcases List.mem_cons.mp h with rfl | h2
    · exact ⟨[], List.append_nil _⟩
    · by_cases hr : reject r
      · rw [if_pos hr] at h2
        exact absurd h2 (List.not_mem_nil x)
      · rw [if_neg hr] at h2
        rcases List.mem_flatMap.mp h2 with ⟨d, hd, hx⟩
        rcases mem_children.mp hd with ⟨_, ch, _, rfl⟩
        rcases ih _ x hx with ⟨t, ht⟩
        exact ⟨ch :: t, by rw [← ht, List.append_assoc]; rfl⟩

theorem visited_recF_src :
    ∀ fuel r x, x ∈ visited_recF fuel r →
      x = r ∨ ∃ p, reject p = false ∧ x ∈ children p ∧ p ∈ visited_recF fuel r := by
  intro fuel
  induction fuel with
  | zero => intro r x h; exact absurd h (List.not_mem_nil x)
  | succ f ih =>
    intro r x h
    unfold visited_recF at h
    rcases List.mem_cons.mp h with rfl | h2
    · exact Or.inl rfl
    · by_cases hr : reject r
      · rw [if_pos hr] at h2
        exact absurd h2 (List.not_mem_nil x)
      · rw [if_neg hr] at h2
        rcases List.mem_flatMap.mp h2 with ⟨d, hd, hx⟩
        have hrf : reject r = false := by
          cases hrv : reject r
          · rfl
          · exact absurd hrv hr
        rcases ih d x hx with rfl | ⟨p, hp1, hp2, hp3⟩
        · refine Or.inr ⟨r, hrf, hd, ?_⟩
          unfold visited_recF
          exact List.mem_cons_self r _
        · refine Or.inr ⟨p, hp1, hp2, ?_⟩
          unfold visited_recF
          rw [if_neg hr]
          exact List.mem_cons_of_mem r (List.mem_flatMap.mpr ⟨d, hd, hp3⟩)

theorem visited_recF_length :
    ∀ fuel r x, r.length ≤ 5 → x ∈ visited_recF fuel r → x.length ≤ 5 := by
  intro fuel
  induction fuel with
  | zero => intro r x _ h; exact absurd h (List.not_mem_nil x)
  | succ f ih =>
    intro r x h5 h
    unfold visited_recF at h
    rcases List.mem_cons.mp h with rfl | h2
    · exact h5
    · by_cases hr : reject r
      · rw [if_pos hr] at h2
        exact absurd h2 (List.not_mem_nil x)
      · rw [if_neg hr] at h2
        rcases List.mem_flatMap.mp h2 with ⟨d, hd, hx⟩
        rcases mem_children_length hd with ⟨hdl, hrl⟩
        exact ih d x (by omega) hx

theorem mem_backtrack_rec_not_rejected {r x : List Char}
    (h : x ∈ backtrack_rec r) : reject x = false ∧ accept x = true := by
  rw [backtrack_rec_eq_filter] at h
  have hp := (List.mem_filter.mp h).2
  rcases Bool.and_eq_true_iff.mp hp with ⟨h1, h2⟩
  refine ⟨?_, h2⟩
  cases hrx : reject x
  · rfl
  · rw [hrx] at h1
    exact Bool.noConfusion h1

theorem next_child_some_shape {c d : List Char} (h : next_child c = some d) :
    ∃ ch, d = c.dropLast ++ [ch] := by
  cases hgl : c.getLast? with
  | none =>
    have he : next_childE c = Except.error () := by
      simp only [next_childE, hgl]
    unfold next_child at h
    rw [he] at h
    exact Option.noConfusion h
  | some lc =>
    by_cases h9 : lc = '9'
    · subst h9
      have he : next_childE c = Except.ok none := by
        simp only [next_childE, hgl]
        rw [if_pos (by rw [vc_getLast])]
      unfold next_child at h
      rw [he] at h
      exact Option.noConfusion h
    · by_cases hmem : lc ∈ valid_chars
      · rcases next_childE_mem c lc hgl hmem h9 with ⟨i, _, _, he⟩
        unfold next_child at h
        rw [he] at h
        exact ⟨vc_at (i + 1), (Option.some.inj h).symm⟩
      · have he := next_childE_not_mem c lc hgl hmem
        unfold next_child at h
        rw [he] at h
        exact ⟨'a', (Option.some.inj h).symm⟩

theorem next_child_length {c d : List Char} (h : next_child c = some d) :
    d.length = c.length := by
  have hne : c ≠ [] := by
    intro he
    subst he
    have herr : next_childE ([] : List Char) = Except.error () := rfl
    unfold next_child at h
    rw [herr] at h
    exact Option.noConfusion h
  rcases next_child_some_shape h with ⟨ch, rfl⟩
  rw [List.length_append, List.length_dropLast, List.length_singleton]
  have := List.length_pos.mpr hne
  omega

/-! ### Claims C6 and C7 -/

/-- C6: in each strategy, a rejected candidate that is encountered during the
search is never emitted as accepted and none of its children is ever
visited. -/
theorem C6_rejected_never_expanded (r c : List Char) (hrej : reject c = true) :
    (c ∈ visited_rec r →
      c ∉ backtrack_rec r ∧ ∀ x ∈ children c, x ∉ visited_rec r) ∧
    (c ∈ visited_stk r →
      c ∉ backtrack_stk r ∧ ∀ x ∈ children c, x ∉ visited_stk r) ∧
    (c ∈ visited_que r →
      c ∉ backtrack_que r ∧ ∀ x ∈ children c, x ∉ visited_que r) := by
  have hrec : c ∈ visited_rec r →
      c ∉ backtrack_rec r ∧ ∀ x ∈ children c, x ∉ visited_rec r := by
    intro hcv
    constructor
    · intro hce
      have h := (mem_backtrack_rec_not_rejected hce).1
      rw [hrej] at h
      exact Bool.noConfusion h
    · intro x hx hxv
      rcases visited_recF_src 6 r x hxv with heq | ⟨p, hp1, hp2, hp3⟩
      · rcases visited_recF_ext 6 r c hcv with ⟨t, ht⟩
        have hlc : r.length + t.length = c.length := by
          have := congrArg List.length ht
          rw [List.length_append] at this
          exact this
        have hxl : x.length = c.length + 1 := (mem_children_length hx).1
        rw [heq] at hxl
        omega
      · have hpc : p = c := children_parent hp2 hx
        rw [hpc, hrej] at hp1
        exact Bool.noConfusion hp1
  refine ⟨hrec, ?_, ?_⟩
  · intro hcv
    rcases hrec ((visited_stk_perm r).mem_iff.mp hcv) with ⟨_, hnc⟩
    constructor
    · intro hce
      rw [backtrack_stk_eq_filter] at hce
      rcases Bool.and_eq_true_iff.mp (List.mem_filter.mp hce).2 with ⟨h1, _⟩
      rw [hrej] at h1
      exact Bool.noConfusion h1
    · intro x hx hxv
      exact hnc x hx ((visited_stk_perm r).mem_iff.mp hxv)
  · intro hcv
    rcases hrec ((visited_que_perm r).mem_iff.mp hcv) with ⟨_, hnc⟩
    constructor
    · intro hce
      rw [backtrack_que_eq_filter] at hce
      rcases Bool.and_eq_true_iff.mp (List.mem_filter.mp hce).2 with ⟨h1, _⟩
      rw [hrej] at h1
      exact Bool.noConfusion h1
    · intro x hx hxv
      exact hnc x hx ((visited_que_perm r).mem_iff.mp hxv)

/-- Witness for C6: from the root `9999` the rejected candidate `99999` is
visited by the recursive search but never emitted. -/
theorem C6_witness :
    ['9', '9', '9', '9', '9'] ∉ backtrack_rec ['9', '9', '9', '9'] :=
  ((C6_rejected_never_expanded ['9', '9', '9', '9'] ['9', '9', '9', '9', '9']
    (by decide)).1 (by decide)).1

/-- C7: `first_child` returns `none` on candidates of length at least 5,
`next_child` preserves the length of its input, and hence from any root of
length at most 5 every candidate reaching the frontier of any of the three
strategies has length at most 5. -/
theorem C7_length_bound :
    (∀ c : List Char, 5 ≤ c.length → first_child c = none) ∧
    (∀ c d : List Char, next_child c = some d → d.length = c.length) ∧
    (∀ r x : List Char, r.length ≤ 5 →
      x ∈ visited_rec r ∨ x ∈ visited_stk r ∨ x ∈ visited_que r →
      x.length ≤ 5) := by
  refine ⟨?_, ?_, ?_⟩
  · intro c h
    unfold first_child
    rw [if_pos h]
  · intro c d h
    exact next_child_length h
  · intro r x h5 hx
    have hxr : x ∈ visited_rec r := by
      rcases hx with h | h | h
      · exact h
      · exact (visited_stk_perm r).mem_iff.mp h
      · exact (visited_que_perm r).mem_iff.mp h
    exact visited_recF_length 6 r x h5 hxr

/-- Witness for C7: `first_child` refuses to extend `aaaaa`, and the visited
candidate `b12aa` of the root `b12a` has length at most 5. -/
theorem C7_witness :
    first_child ['a', 'a', 'a', 'a', 'a'] = none ∧
      (['b', '1', '2', 'a', 'a'] : List Char).length ≤ 5 :=
  ⟨C7_length_bound.1 ['a', 'a', 'a', 'a', 'a'] (by decide),
    C7_length_bound.2.2 ['b', '1', '2', 'a'] ['b', '1', '2', 'a', 'a']
      (by decide) (Or.inl (by decide))⟩

/-! ### The recursive search visits candidates in lexicographic order -/

/-- Position of a character in the alphabet ordering of the program
(`a < b < … < z < 0 < … < 9`), as computed by `valid_chars.find`. -/
def rank (ch : Char) : Nat := str_find valid_chars ch

/-- Lexicographic comparison with respect to the alphabet ordering: a proper
extension is greater, and otherwise the first differing character decides. -/
def lexLtB : List Char → List Char → Bool
  | _, [] => false
  | [], _ :: _ => true
  | x :: xs, y :: ys => if x = y then lexLtB xs ys else decide (rank x < rank y)

theorem vc_rank_pairwise :
    List.Pairwise (fun u v => rank u < rank v) valid_chars := by
  decide

theorem lex_of_ext :
    ∀ c x : List Char, (∃ t, c ++ t = x) → c.length < x.length →
      lexLtB c x = true := by
  intro c
  induction c with
  | nil =>
    intro x _ hl
    cases x with
    | nil => simp at hl
    | cons b bs => rfl
  | cons a as ih =>
    intro x hext hl
    rcases hext with ⟨t, ht⟩
    cases x with
    | nil =>
      simp only [List.length_cons, List.length_nil] at hl
      omega
    | cons b bs =>
      have hab : a = b := (List.cons.inj ht).1
      have hrest : as ++ t = bs := (List.cons.inj ht).2
      subst hab
      show lexLtB (a :: as) (a :: bs) = true
      unfold lexLtB
      rw [if_pos rfl]
      apply ih
      · exact ⟨t, hrest⟩
      · simp only [List.length_cons] at hl
        omega

theorem lex_append_lt :
    ∀ (p : List Char) (u v : Char) (s t : List Char), rank u < rank v →
      lexLtB (p ++ u :: s) (p ++ v :: t) = true := by
  intro p
  induction p with
  | nil =>
    intro u v s t h
    show lexLtB (u :: s) (v :: t) = true
    unfold lexLtB
    rw [if_neg (fun he => by rw [he] at h; exact Nat.lt_irrefl _ h)]
    exact decide_eq_true h
  | cons a p ih =>
    intro u v s t h
    show lexLtB (a :: (p ++ u :: s)) (a :: (p ++ v :: t)) = true
    unfold lexLtB
    rw [if_pos rfl]
    exact ih u v s t h

theorem pairwise_flatMap {α β : Type} {R : β → β → Prop} {f : α → List β} :
    ∀ ds : List α, (∀ d ∈ ds, List.Pairwise R (f d)) →
      List.Pairwise (fun a b => ∀ x ∈ f a, ∀ y ∈ f b, R x y) ds →
      List.Pairwise R (ds.flatMap f) := by
  intro ds
  induction ds with
  | nil => intro _ _; exact List.Pairwise.nil
  | cons d ds ih =>
    intro hin hcross
    rw [List.flatMap_cons, List.pairwise_append]
    rcases List.pairwise_cons.mp hcross with ⟨hc1, hc2⟩
    refine ⟨hin d (List.mem_cons_self d ds),
      ih (fun e he => hin e (List.mem_cons_of_mem d he)) hc2, ?_⟩
    intro x hx y hy
    rcases List.mem_flatMap.mp hy with ⟨e, he, hy'⟩
    exact hc1 e he x hx y hy'

theorem visited_recF_pairwise :
    ∀ fuel c, List.Pairwise (fun a b => lexLtB a b = true) (visited_recF fuel c) := by
  intro fuel
  induction fuel with
  | zero => intro c; exact List.Pairwise.nil
  | succ f ih =>
    intro c
    unfold visited_recF
    by_cases hr : reject c
    · rw [if_pos hr]
      exact List.pairwise_cons.mpr
        ⟨fun x hx => absurd hx (List.not_mem_nil x), List.Pairwise.nil⟩
    · rw [if_neg hr, List.pairwise_cons]
      constructor
      · intro x hx
        rcases List.mem_flatMap.mp hx with ⟨d, hd, hxv⟩
        rcases mem_children.mp hd with ⟨h5, ch, hch, rfl⟩
        rcases visited_recF_ext f _ x hxv with ⟨t, ht⟩
        apply lex_of_ext c x
        · refine ⟨ch :: t, ?_⟩
          rw [← ht, List.append_assoc]
          rfl
        · have hlen := congrArg List.length ht
          rw [List.length_append, List.length_append, List.length_singleton] at hlen
          omega
      · apply pairwise_flatMap (children c)
        · intro d _
          exact ih d
        · by_cases h5 : 5 ≤ c.length
          · rw [children_of_long h5]
            exact List.Pairwise.nil
          · rw [children_eq, if_neg h5, List.pairwise_map]
            refine List.Pairwise.imp ?_ vc_rank_pairwise
            intro u v huv x hx y hy
            rcases visited_recF_ext f _ x hx with ⟨s, hs⟩
            rcases visited_recF_ext f _ y hy with ⟨t, ht⟩
            have hx' : c ++ (u :: s) = x := by
              rw [← hs, List.append_assoc]
              rfl
            have hy' : c ++ (v :: t) = y := by
              rw [← ht, List.append_assoc]
              rfl
            rw [← hx', ← hy']
            exact lex_append_lt c u v s t huv

/-! ### Claim C9 -/

/-- C9: the recursive search visits candidates — and hence emits accepted
candidates — in strictly increasing lexicographic order with respect to the
alphabet ordering `a < b < … < z < 0 < … < 9` (a candidate before its
extensions, siblings in alphabet order). -/
theorem C9_lexicographic_order (r : List Char) :
    List.Pairwise (fun a b => lexLtB a b = true) (visited_rec r) ∧
      List.Pairwise (fun a b => lexLtB a b = true) (backtrack_rec r) := by
  have hv := visited_recF_pairwise 6 r
  refine ⟨hv, ?_⟩
  rw [backtrack_rec_eq_filter]
  exact List.Pairwise.sublist (List.filter_sublist _) hv
